import Mathlib

/-!
Verification development for the stem420 backend (worker-pool dispatcher,
job lifecycle tracker, pipeline orchestrator and oneoff batch driver).

Shallow embedding conventions:
* `Manager` models `backend/stem420/manager.py`: the pool protocol
  (slot borrowing, the bounded request channel, worker loops, close
  sentinels) is a labelled transition system over `Manager.MState`;
  the non-blocking channel pushes (`Queue.put_nowait`) are `Except`-valued
  functions whose error value stands for the raised `queue.Full`.
* `RunJob` models `backend/stem420/run_job.py`: locator parsing and the
  demucs-output flattening loop are pure functions; the lifecycle counters
  (`_RunJobState`) are a record threaded through the operations that the
  source performs under `self._lock`, so a trace of operations is a list
  folded over the state.  External collaborators (GCS, ffmpeg, demucs) only
  surface here as the logs a pipeline body emits and whether it raised.
* `Oneoff` models `backend/stem420/oneoff.py`.
Strings are handled as `List Char` where the source slices and splits, so
that every definition evaluates by kernel reduction on concrete inputs.
-/

/-- Number of elements of a list satisfying a Boolean predicate. -/
def cnt {α : Type} (p : α → Bool) : List α → Nat
  | [] => 0
  | x :: xs => (if p x then 1 else 0) + cnt p xs

/-- Python `s.startswith(pre)` on character lists. -/
def startswith : List Char → List Char → Bool
  | [], _ => true
  | _ :: _, [] => false
  | p :: ps, c :: cs => p == c && startswith ps cs

/-- Python `s.split(sep, 1)` on character lists: the part before the first
separator, and (when the separator occurs) the remainder after it. -/
def split1 (sep : Char) : List Char → List Char × Option (List Char)
  | [] => ([], none)
  | c :: cs =>
    if c == sep then ([], some cs) else
      let r := split1 sep cs
      (c :: r.1, r.2)

/-- Python `s.split(sep)` (no limit) on character lists. -/
def splitAll (sep : Char) : List Char → List (List Char)
  | [] => [[]]
  | c :: cs =>
    if c == sep then [] :: splitAll sep cs else
      match splitAll sep cs with
      | s :: ss => (c :: s) :: ss
      | [] => [[c]]

namespace Manager

/-- State of one caller of `Manager.run`: `idle` before the call,
`borrowed` after `response_queues.get()` returned a slot but before the
`request_queue.put_nowait`, `waiting` while blocked on `register.get()`,
`ready` once a worker deposited the result into the borrowed slot. -/
inductive CSt
  | idle
  | borrowed
  | waiting
  | ready
deriving DecidableEq

/-- State of one worker thread running `Manager.init_runner`'s loop:
blocked on `request_queue.get()`, running the handler for the caller with
the given id, or out of the loop after dequeuing a stop sentinel. -/
inductive WSt
  | awaiting
  | processing (c : Nat)
  | stopped
deriving DecidableEq

/-- Global protocol state of one constructed pool.  `pool` counts the
single-slot response channels currently inside `response_queues`; `queue`
is the content of `request_queue` in FIFO order, `some c` being the pair
`(request, slot)` pushed by caller `c` and `none` the `(None, None)` stop
sentinel pushed by `close`. -/
structure MState where
  pool : Nat
  queue : List (Option Nat)
  clients : List CSt
  workers : List WSt
deriving DecidableEq

/-- Pool state right after a successful `Manager.__init__` with `num = n`:
`n` slots deposited, empty request channel, `k` idle callers, `n` workers
blocked on the request channel. -/
def initState (n k : Nat) : MState :=
  ⟨n, [], List.replicate k CSt.idle, List.replicate n WSt.awaiting⟩

/-- The `request_queue.put_nowait((request, register))` performed by
`Manager.run` for caller `c`: the channel has capacity `n`, so the
non-blocking push raises `queue.Full` (the error branch) exactly when `n`
items are already queued. -/
def request_put_nowait (n : Nat) (s : MState) (c : Nat) : Except Unit MState :=
  if s.queue.length < n then
    .ok { s with queue := s.queue ++ [some c], clients := s.clients.set c CSt.waiting }
  else
    .error ()

/-- One `request_queue.put_nowait((None, None))` performed by
`Manager.close`: non-blocking, raises `queue.Full` when the channel is
full. -/
def close_put_nowait (n : Nat) (s : MState) : Except Unit MState :=
  if s.queue.length < n then
    .ok { s with queue := s.queue ++ [none] }
  else
    .error ()

/-- The loop body of `Manager.close`: `count` successive sentinel pushes
onto a channel of capacity `n`. -/
def closeSeq (n : Nat) : Nat → MState → Except Unit MState
  | 0, s => .ok s
  | k + 1, s =>
    match close_put_nowait n s with
    | .ok s1 => closeSeq n k s1
    | .error e => .error e

/-- The whole of `Manager.close` on a pool of `n` workers: one sentinel
pushed per worker. -/
def close (n : Nat) (s : MState) : Except Unit MState :=
  closeSeq n n s

/-- Interleaving semantics of the pool operations exercised by `run` and
by the worker loops (no `close` in flight): each constructor is one atomic
channel operation of `manager.py`. -/
inductive Step (n : Nat) : MState → MState → Prop
  | borrow (s : MState) (c : Nat)
      (hc : s.clients[c]? = some CSt.idle) (hp : 0 < s.pool) :
      Step n s { s with pool := s.pool - 1, clients := s.clients.set c CSt.borrowed }
  | push (s : MState) (c : Nat)
      (hc : s.clients[c]? = some CSt.borrowed) (hq : s.queue.length < n) :
      Step n s { s with queue := s.queue ++ [some c], clients := s.clients.set c CSt.waiting }
  | dequeue_request (s : MState) (w c : Nat) (rest : List (Option Nat))
      (hw : s.workers[w]? = some WSt.awaiting) (hq : s.queue = some c :: rest) :
      Step n s { s with queue := rest, workers := s.workers.set w (WSt.processing c) }
  | dequeue_sentinel (s : MState) (w : Nat) (rest : List (Option Nat))
      (hw : s.workers[w]? = some WSt.awaiting) (hq : s.queue = none :: rest) :
      Step n s { s with queue := rest, workers := s.workers.set w WSt.stopped }
  | finish (s : MState) (w c : Nat)
      (hw : s.workers[w]? = some (WSt.processing c)) :
      Step n s { s with workers := s.workers.set w WSt.awaiting, clients := s.clients.set c CSt.ready }
  | read_result (s : MState) (c : Nat)
      (hc : s.clients[c]? = some CSt.ready) :
      Step n s { s with pool := s.pool + 1, clients := s.clients.set c CSt.idle }

/-- Interleaving semantics including the sentinel pushes of a concurrent
`close` call. -/
inductive StepC (n : Nat) : MState → MState → Prop
  | run (s s1 : MState) : Step n s s1 → StepC n s s1
  | close_push (s : MState) (hq : s.queue.length < n) :
      StepC n s { s with queue := s.queue ++ [none] }

/-- States reachable from a freshly constructed pool by `run` calls and
worker activity only. -/
inductive Reach (n k : Nat) : MState → Prop
  | init : Reach n k (initState n k)
  | step (s s1 : MState) : Reach n k s → Step n s s1 → Reach n k s1

/-- States reachable when a `close` call may also be interleaved. -/
inductive ReachC (n k : Nat) : MState → Prop
  | init : ReachC n k (initState n k)
  | step (s s1 : MState) : ReachC n k s → StepC n s s1 → ReachC n k s1

/-- Whether a caller state is `borrowed`. -/
def isBorrowedC : CSt → Bool
  | CSt.borrowed => true
  | _ => false

/-- Whether a caller state is `waiting`. -/
def isWaitingC : CSt → Bool
  | CSt.waiting => true
  | _ => false

/-- Whether a caller state is `ready`. -/
def isReadyC : CSt → Bool
  | CSt.ready => true
  | _ => false

/-- Whether a queue item is the request pair of caller `c`. -/
def isPairOf (c : Nat) : Option Nat → Bool
  | some c2 => c2 == c
  | none => false

/-- Whether a worker is running the handler. -/
def isProcessing : WSt → Bool
  | WSt.processing _ => true
  | _ => false

/-- Whether a worker is running the handler for caller `c`. -/
def isProcOf (c : Nat) : WSt → Bool
  | WSt.processing c2 => c2 == c
  | _ => false

/-- Number of callers currently holding a borrowed slot before their push. -/
def nBorrowed (s : MState) : Nat := cnt isBorrowedC s.clients

/-- Number of callers blocked reading their borrowed slot. -/
def nWaiting (s : MState) : Nat := cnt isWaitingC s.clients

/-- Number of callers whose slot has a deposited result not yet read. -/
def nReady (s : MState) : Nat := cnt isReadyC s.clients

/-- Number of real `(request, slot)` pairs in the request channel. -/
def nReq (s : MState) : Nat := cnt Option.isSome s.queue

/-- Number of workers currently running the handler. -/
def nProcTotal (s : MState) : Nat := cnt isProcessing s.workers

/-- Number of queued requests belonging to caller `c`. -/
def qCount (c : Nat) (s : MState) : Nat := cnt (isPairOf c) s.queue

/-- Number of workers running the handler for caller `c`. -/
def pCount (c : Nat) (s : MState) : Nat := cnt (isProcOf c) s.workers

/-- Protocol invariant: slot conservation (every one of the `n` slots is in
the pool, in a borrower's hand, inside a queued pair, held by a worker, or
carrying an unread result), the correspondence between waiting callers and
request tokens, and per-caller token uniqueness. -/
structure Inv (n : Nat) (s : MState) : Prop where
  slots : s.pool + nBorrowed s + nWaiting s + nReady s = n
  tokens : nWaiting s = nReq s + nProcTotal s
  client_token : ∀ c, qCount c s + pCount c s = (if s.clients[c]? = some CSt.waiting then 1 else 0)

/-- A queue with no stop sentinels (holds as long as `close` was not called). -/
def AllSome (s : MState) : Prop := ∀ q ∈ s.queue, q.isSome = true

/-- Model of a single-slot response channel (`queue.Queue(1)`); its content
is tracked by the caller states, so the value itself is opaque. -/
structure Slot
deriving DecidableEq

/-- One result report arriving on `response_queues` during construction:
`none` for a successful factory invocation, `some e` for a factory that
raised `e`.  `num` is the loop bound `range(self.num)`; the blocking
`get()` is modelled by the arrival list, which construction consumes in
order. -/
def initCollect {ε : Type} : Nat → List (Option ε) → Except ε Unit
  | 0, _ => .ok ()
  | _ + 1, [] => .ok ()
  | k + 1, none :: rest => initCollect k rest
  | _ + 1, some e :: _ => .error e

/-- Number of `response_queues.get()` calls the construction loop performs
before returning or raising. -/
def initGets {ε : Type} : Nat → List (Option ε) → Nat
  | 0, _ => 0
  | _ + 1, [] => 0
  | k + 1, none :: rest => 1 + initGets k rest
  | _ + 1, some _ :: _ => 1

/-- The observable outcome of `Manager.__init__` with `num` workers given
the arrival order of the factory reports: either the first reported error
is re-raised, or `num` fresh single-slot response channels are deposited
into the slot pool. -/
def managerInit {ε : Type} (num : Nat) (reports : List (Option ε)) : Except ε (List Slot) :=
  match initCollect num reports with
  | .error e => .error e
  | .ok _ => .ok (List.replicate num Slot.mk)

/-- The deposit a worker makes into the borrowed slot at the end of one
loop iteration: `register.put((e, False))` when the handler raised,
`register.put((response, True))` when it returned. -/
inductive SlotMsg (ε υ : Type)
  | failure (e : ε)
  | success (u : υ)

/-- Maps the handler invocation outcome to the deposited pair. -/
def runner_deposit {ε υ : Type} (outcome : Except ε υ) : SlotMsg ε υ :=
  match outcome with
  | .error e => .failure e
  | .ok u => .success u

/-- The tail of `Manager.run` after `register.get()` returned: the slot is
pushed back into `response_queues`, then the captured error is re-raised
when the success flag is false, else the response is returned. -/
def run_receive {ε υ : Type} (pool : List Slot) (register : Slot) (msg : SlotMsg ε υ) :
    List Slot × Except ε υ :=
  (pool ++ [register],
    match msg with
    | .failure e => .error e
    | .success u => .ok u)

/-- Reference to one `threading.Lock` object, identified by its allocation
site; `init_lock = threading.Lock()` in the class body of `Manager` runs
once per process, when the class object is created. -/
structure LockRef where
  id : Nat
deriving DecidableEq

/-- The class attribute `Manager.init_lock`: the single lock allocated when
the class body executed. -/
def init_lock : LockRef := ⟨0⟩

/-- The attributes `Manager.__init__` stores on an instance (`self.f`,
`self.num`, `self.request_queue`, `self.response_queues`); none of them is
named `init_lock`, so instances never shadow the class attribute. -/
structure MInstance where
  num : Nat
deriving DecidableEq

/-- Python attribute lookup for `self.init_lock` inside `init_runner`:
the instance dictionary has no such key, so it resolves to the class
attribute, the same object for every instance. -/
def MInstance.init_lock_of (_ : MInstance) : LockRef := Manager.init_lock

/-- Worker `w` of pool `p` is inside the `with self.init_lock:` block of
`init_runner`, running the factory, when the table entry of the lock its
instance resolves to records it as the holder. -/
def runningFactory (insts : Nat → MInstance) (tbl : Nat → Option (Nat × Nat)) (p w : Nat) : Prop :=
  tbl ((insts p).init_lock_of).id = some (p, w)

end Manager

namespace RunJob

/-- The request body accepted by the service (`class Request`). -/
structure Request where
  mp3_path : String
  output_path : String
deriving DecidableEq

/-- The empty acknowledgment (`class Response(BaseModel): pass`): no
payload fields. -/
structure Response
deriving DecidableEq

/-- The shared `_RunJobState`: append-only log buffer and the two
lifecycle counters. -/
structure RunJobState where
  logs : List String
  started_jobs : Nat
  finished_jobs : Nat
deriving DecidableEq

/-- The process-wide `_STATE` right after module import. -/
def initialState : RunJobState := ⟨[], 0, 0⟩

/-- One `_STATE.log(msg)` call: appends to the buffer (the forward to the
external logging sink has no observable state here). -/
def log (s : RunJobState) (msg : String) : RunJobState :=
  { s with logs := s.logs ++ [msg] }

/-- One `_STATE.mark_started()` call. -/
def mark_started (s : RunJobState) : RunJobState :=
  { s with started_jobs := s.started_jobs + 1 }

/-- One `_STATE.mark_finished()` call. -/
def mark_finished (s : RunJobState) : RunJobState :=
  { s with finished_jobs := s.finished_jobs + 1 }

/-- The snapshot returned by `_STATE.state()`: a point-in-time copy of the
log list and both counters. -/
def state (s : RunJobState) : List String × Nat × Nat :=
  (s.logs, s.started_jobs, s.finished_jobs)

/-- One atomic operation on `_RunJobState` (each source method runs under
`self._lock`, so an interleaved execution is a sequence of these). -/
inductive LifecycleOp
  | markStartedOp
  | markFinishedOp
  | logOp (msg : String)
deriving DecidableEq

/-- Applies one lifecycle operation. -/
def applyOp (s : RunJobState) : LifecycleOp → RunJobState
  | .markStartedOp => mark_started s
  | .markFinishedOp => mark_finished s
  | .logOp m => log s m

/-- Runs an interleaving of lifecycle operations. -/
def runOps (s : RunJobState) (ops : List LifecycleOp) : RunJobState :=
  ops.foldl applyOp s

/-- Number of `mark_started` calls in a trace. -/
def countStarted (ops : List LifecycleOp) : Nat :=
  cnt (fun o => decide (o = LifecycleOp.markStartedOp)) ops

/-- Number of `mark_finished` calls in a trace. -/
def countFinished (ops : List LifecycleOp) : Nat :=
  cnt (fun o => decide (o = LifecycleOp.markFinishedOp)) ops

/-- Locator parsing `_parse_gcs_path`.  After the `startswith` check, the
source's `gcs_path.split("gs://", 1)` keeps everything after the leading
scheme token (five characters), and `path.split("/", 1)` yields the bucket
and, when a separator occurs, the object path (`blob_path` defaults to the
empty string when no separator occurs). -/
def _parse_gcs_path (gcs_path : String) : Except String (String × String) :=
  if startswith "gs://".toList gcs_path.toList then
    let path := gcs_path.toList.drop 5
    let r := split1 '/' path
    let bucket_name := r.1
    let blob_path := match r.2 with
      | some b => b
      | none => []
    if bucket_name.isEmpty || blob_path.isEmpty then
      .error ("Invalid GCS path: " ++ gcs_path)
    else
      .ok (bucket_name.asString, blob_path.asString)
  else
    .error ("Invalid GCS path: " ++ gcs_path)

/-- Modelled from the spec's characterization, for comparison with the
source parser: a locator is invalid when it does not begin with the scheme
token, or the container segment is empty, or the object segment is missing
or empty. -/
def specInvalidLocator (s : String) : Bool :=
  !(startswith "gs://".toList s.toList)
    || (split1 '/' (s.toList.drop 5)).1.isEmpty
    || (match (split1 '/' (s.toList.drop 5)).2 with
        | none => true
        | some b => b.isEmpty)

/-- The container segment the source parser extracts. -/
def containerOf (s : String) : String := (split1 '/' (s.toList.drop 5)).1.asString

/-- The object segment the source parser extracts (empty when missing). -/
def objectOf (s : String) : String :=
  (match (split1 '/' (s.toList.drop 5)).2 with
    | some b => b
    | none => []).asString

/-- One entry of a directory listing in the filesystem model used by the
flattening loop of `_run_demucs`. -/
inductive Entry
  | file (name : String)
  | dir (name : String) (entries : List Entry)

/-- Name of an entry. -/
def entryName : Entry → String
  | .file n => n
  | .dir n _ => n

/-- Whether an entry is a regular file (`Path.is_file`). -/
def isFile : Entry → Bool
  | .file _ => true
  | .dir _ _ => false

/-- Whether an entry is a directory (`Path.is_dir`). -/
def isDir : Entry → Bool
  | .file _ => false
  | .dir _ _ => true

/-- Listing of a directory entry (`Path.iterdir`); empty for files. -/
def childrenOf : Entry → List Entry
  | .file _ => []
  | .dir _ es => es

/-- One `stem_file.replace(output_dir / stem_file.name)`: `os.replace`
overwrites an existing file of the same name, and raises when the target
name is an existing directory. -/
def replaceInto (root : List Entry) (f : Entry) : Except String (List Entry) :=
  match root.find? (fun e => entryName e == entryName f) with
  | some (.dir _ _) => .error "IsADirectoryError"
  | some (.file _) => .ok (root.map (fun e => if entryName e == entryName f then f else e))
  | none => .ok (root ++ [f])

/-- The files the inner loops of `_run_demucs` move out of one model
directory: the regular files directly inside each of its track
subdirectories. -/
def movedOf (m : Entry) : List Entry :=
  ((childrenOf m).filter isDir).flatMap (fun t => (childrenOf t).filter isFile)

/-- Body of the outer flattening loop of `_run_demucs` for one model
directory: move the files found one level below its track subdirectories
into `output_dir` in iteration order (`shutil.rmtree(track_dir)` only
discards what was not moved), then `shutil.rmtree(model_dir)` removes the
model directory, with everything still inside it, from the listing. -/
def processModelDir (acc : List Entry) (m : Entry) : Except String (List Entry) := do
  let acc1 ← (movedOf m).foldlM replaceInto acc
  pure (acc1.filter (fun e => !(isDir e && entryName e == entryName m)))

/-- The flattening loop at the end of `_run_demucs`, acting on the listing
of `output_dir`: the model directories are listed first, then each is
processed in turn. -/
def _run_demucs_flatten (root : List Entry) : Except String (List Entry) :=
  (root.filter isDir).foldlM processModelDir root

/-- Names of a listing. -/
def names (es : List Entry) : List String := es.map entryName

/-- All files sitting exactly two directory levels below the root, in
iteration order: for the standard demucs output tree (model directory,
then track directory, then stem files) these are all the produced files. -/
def origFiles2 (root : List Entry) : List Entry :=
  root.flatMap (fun m => (childrenOf m).flatMap childrenOf)

/-- The whole anonymous-thread pipeline `_process_request`, abstracted
over what stages 1 to 7 did: `bodyLogs` are the log lines the stages
emitted, and `outcome` is `none` when they all succeeded or
`some tb` when one raised with diagnostic trace `tb`
(`traceback.format_exc()`).  The second component is what the function
raises to its caller: the source catches every `Exception`, so it is
always `none`. -/
def _process_request (request : Request) (bodyLogs : List String) (outcome : Option String)
    (s : RunJobState) : RunJobState × Option String :=
  let s0 := log s ("run_job.process.start mp3_path=" ++ request.mp3_path
    ++ " output_path=" ++ request.output_path)
  let s1 := bodyLogs.foldl log s0
  let r := match outcome with
    | none => (log s1 "run_job.process.success", (none : Option String))
    | some tb => (log (log s1 "run_job.process.error") tb, none)
  (mark_finished r.1, r.2)

/-- Execution context a piece of work is launched on. -/
inductive ExecContext
  | detachedThread
  | poolWorker
deriving DecidableEq

/-- The dispatch facade `run_job`: marks the job started, starts a fresh
daemon `threading.Thread` (not one of the pool's workers) whose target is
`_process_request` on this request, and immediately returns the empty
`Response()`.  The third component is the spawned, not yet executed,
detached task. -/
def run_job (request : Request) (s : RunJobState) :
    RunJobState × Response × (ExecContext × Request) :=
  (mark_started s, Response.mk, (ExecContext.detachedThread, request))

end RunJob

namespace Oneoff

/-- Defaults of `_bucket_and_prefix` (no environment overrides). -/
def bucketDefault : String := "stem420-bucket"

/-- Default base path of `_bucket_and_prefix`. -/
def basePathDefault : String := "_stem420/"

/-- Insert-or-update into an association list, preserving insertion order
(Python `dict` assignment). -/
def insertAssoc (l : List (List Char × List Char)) (k v : List Char) :
    List (List Char × List Char) :=
  if l.any (fun kv => kv.1 == k) then
    l.map (fun kv => if kv.1 == k then (k, v) else kv)
  else
    l ++ [(k, v)]

/-- Loop body of `_list_inputs_without_outputs`, accumulating the `inputs`
dict and the `outputs` set. -/
def classifyBlob (base : List Char) (acc : List (List Char × List Char) × List (List Char))
    (name : List Char) : List (List Char × List Char) × List (List Char) :=
  if startswith base name then
    let relative := name.drop base.length
    let segments := splitAll '/' relative
    if segments.length < 3 then acc
    else
      match segments with
      | job :: cat :: _ =>
        if cat == "input".toList then (insertAssoc acc.1 job name, acc.2)
        else if cat == "output".toList then (acc.1, acc.2 ++ [job])
        else acc
      | [] => acc
      | [_] => acc
  else acc

/-- Faithful model of `_list_inputs_without_outputs`: job ids with an
input blob but no output blob under the base path, with their input blob
names, in first-seen order. -/
def _list_inputs_without_outputs (blob_names : List String) (base : String) :
    List (List Char × List Char) :=
  let acc := blob_names.foldl (fun a nm => classifyBlob base.toList a nm.toList) ([], [])
  acc.1.filter (fun kv => !(acc.2.any (fun j => j == kv.1)))

/-- Model of `oneoff.main` on the lifecycle state: for every input blob
missing an output it builds the request exactly as the source does and
calls `_process_request` directly, synchronously, without any
`mark_started`.  Each pipeline body's logs and outcome are irrelevant to
the counters, so a single `(bodyLogs, outcome)` pair parameterizes them. -/
def main (blob_names : List String) (bodyLogs : List String) (outcome : Option String)
    (s : RunJob.RunJobState) : RunJob.RunJobState :=
  (_list_inputs_without_outputs blob_names basePathDefault).foldl
    (fun st kv =>
      (RunJob._process_request
        ⟨("gs://" ++ bucketDefault ++ "/" ++ kv.2.asString),
         ("gs://" ++ bucketDefault ++ "/" ++ basePathDefault ++ kv.1.asString ++ "/output/")⟩
        bodyLogs outcome st).1)
    s

end Oneoff

/-! Helper lemmas about `cnt` and list indexing. -/

theorem cnt_append {α : Type} (p : α → Bool) (l1 l2 : List α) :
    cnt p (l1 ++ l2) = cnt p l1 + cnt p l2 := by
  induction l1 with
  | nil => simp [cnt]
  | cons x xs ih => simp [cnt, ih]; omega

theorem cnt_set {α : Type} (p : α → Bool) (l : List α) (i : Nat) (a old : α)
    (h : l[i]? = some old) :
    cnt p (l.set i a) + (if p old then 1 else 0) = cnt p l + (if p a then 1 else 0) := by
  induction l generalizing i with
  | nil => simp at h
  | cons x xs ih =>
    cases i with
    | zero =>
      simp at h
      subst h
      simp [cnt]
      omega
    | succ j =>
      simp at h
      have := ih j h
      simp [cnt, List.set]
      omega

theorem cnt_pos_of_getElem {α : Type} (p : α → Bool) (l : List α) (i : Nat) (a : α)
    (h : l[i]? = some a) (hp : p a = true) : 1 ≤ cnt p l := by
  induction l generalizing i with
  | nil => simp at h
  | cons x xs ih =>
    cases i with
    | zero =>
      simp at h
      subst h
      simp [cnt, hp]
    | succ j =>
      simp at h
      have := ih j h
      simp [cnt]
      omega

theorem cnt_eq_zero_iff {α : Type} (p : α → Bool) (l : List α) :
    cnt p l = 0 ↔ ∀ x ∈ l, p x = false := by
  induction l with
  | nil => simp [cnt]
  | cons x xs ih =>
    by_cases hx : p x
    · simp [cnt, hx, ih]
    · simp [cnt, hx, ih]

theorem cnt_eq_length {α : Type} (p : α → Bool) (l : List α)
    (h : ∀ x ∈ l, p x = true) : cnt p l = l.length := by
  induction l with
  | nil => simp [cnt]
  | cons x xs ih =>
    have hx := h x (by simp)
    simp [cnt, hx, ih fun y hy => h y (by simp [hy])]
    omega

theorem getElem_lt_length {α : Type} {l : List α} {i : Nat} {a : α}
    (h : l[i]? = some a) : i < l.length := by
  induction l generalizing i with
  | nil => simp at h
  | cons x xs ih =>
    cases i with
    | zero => simp
    | succ j =>
      simp at h
      have := ih h
      simp
      omega

theorem getElem_set_self {α : Type} (l : List α) (i : Nat) (a : α) (h : i < l.length) :
    (l.set i a)[i]? = some a := by
  induction l generalizing i with
  | nil => simp at h
  | cons x xs ih =>
    cases i with
    | zero => simp [List.set]
    | succ j =>
      simp [List.set]
      exact ih j (by simp at h; omega)

theorem getElem_set_other {α : Type} (l : List α) (i j : Nat) (a : α) (h : i ≠ j) :
    (l.set i a)[j]? = l[j]? := by
  induction l generalizing i j with
  | nil => simp
  | cons x xs ih =>
    cases i with
    | zero =>
      cases j with
      | zero => exact absurd rfl h
      | succ j2 => simp [List.set]
    | succ i2 =>
      cases j with
      | zero => simp [List.set]
      | succ j2 => simp [List.set]; exact ih i2 j2 (by omega)

theorem getElem_mem_list {α : Type} {l : List α} {i : Nat} {a : α}
    (h : l[i]? = some a) : a ∈ l := by
  induction l generalizing i with
  | nil => simp at h
  | cons x xs ih =>
    cases i with
    | zero => simp at h; simp [h]
    | succ j => simp at h; exact List.mem_cons_of_mem _ (ih h)

theorem getElem_replicate_cases {α : Type} {k i : Nat} {a b : α}
    (h : (List.replicate k a)[i]? = some b) : b = a := by
  have := getElem_mem_list h
  exact List.eq_of_mem_replicate this

namespace Manager

/-- The invariant holds in a freshly constructed pool. -/
theorem inv_init (n k : Nat) : Inv n (initState n k) := by
  have hB : nBorrowed (initState n k) = 0 := by
    apply (cnt_eq_zero_iff _ _).mpr
    intro x hx
    simp [initState] at hx
    simp [hx.2, isBorrowedC]
  have hW : nWaiting (initState n k) = 0 := by
    apply (cnt_eq_zero_iff _ _).mpr
    intro x hx
    simp [initState] at hx
    simp [hx.2, isWaitingC]
  have hR : nReady (initState n k) = 0 := by
    apply (cnt_eq_zero_iff _ _).mpr
    intro x hx
    simp [initState] at hx
    simp [hx.2, isReadyC]
  have hP : nProcTotal (initState n k) = 0 := by
    apply (cnt_eq_zero_iff _ _).mpr
    intro x hx
    simp [initState] at hx
    simp [hx.2, isProcessing]
  refine ⟨?_, ?_, ?_⟩
  · simp [initState] at hB hW hR ⊢
    omega
  · rw [hW, hP]
    simp [nReq, initState, cnt]
  · intro c
    have hq : qCount c (initState n k) = 0 := by simp [qCount, initState, cnt]
    have hp : pCount c (initState n k) = 0 := by
      apply (cnt_eq_zero_iff _ _).mpr
      intro x hx
      simp [initState] at hx
      simp [hx.2, isProcOf]
    rw [hq, hp]
    cases h : (initState n k).clients[c]? with
    | none => simp
    | some b =>
      have := getElem_replicate_cases (by simpa [initState] using h)
      subst this
      simp

end Manager

namespace Manager

/-- The invariant is preserved by every interleaved pool operation,
including the sentinel pushes of `close`. -/
theorem inv_step {n : Nat} {s s1 : MState} (hI : Inv n s) (h : StepC n s s1) : Inv n s1 := by
  cases h with
  | close_push hq =>
    refine ⟨hI.slots, ?_, ?_⟩
    · have hq2 : cnt Option.isSome (s.queue ++ [none]) = cnt Option.isSome s.queue := by
        rw [cnt_append]; simp [cnt]
      have ht := hI.tokens
      simp only [nWaiting, nReq, nProcTotal] at ht ⊢
      omega
    · intro c2
      have hct := hI.client_token c2
      have hq2 : cnt (isPairOf c2) (s.queue ++ [none]) = cnt (isPairOf c2) s.queue := by
        rw [cnt_append]; simp [cnt, isPairOf]
      simp only [qCount, pCount] at hct ⊢
      omega
  | run s2 hstep =>
    cases hstep with
    | borrow c hc hp =>
      refine ⟨?_, ?_, ?_⟩
      · have hB := cnt_set isBorrowedC s.clients c CSt.borrowed CSt.idle hc
        have hW := cnt_set isWaitingC s.clients c CSt.borrowed CSt.idle hc
        have hR := cnt_set isReadyC s.clients c CSt.borrowed CSt.idle hc
        have hs := hI.slots
        simp [isBorrowedC, isWaitingC, isReadyC] at hB hW hR
        simp only [nBorrowed, nWaiting, nReady] at hs ⊢
        omega
      · have hW := cnt_set isWaitingC s.clients c CSt.borrowed CSt.idle hc
        have ht := hI.tokens
        simp [isWaitingC] at hW
        simp only [nWaiting, nReq, nProcTotal] at ht ⊢
        omega
      · intro c2
        have hct := hI.client_token c2
        by_cases hcc : c2 = c
        · subst hcc
          have hnew : (s.clients.set c2 CSt.borrowed)[c2]? = some CSt.borrowed :=
            getElem_set_self _ _ _ (getElem_lt_length hc)
          simp only [qCount, pCount] at hct ⊢
          rw [hc] at hct
          simp at hct
          simp [hnew]
          omega
        · have hnew : (s.clients.set c CSt.borrowed)[c2]? = s.clients[c2]? :=
            getElem_set_other _ _ _ _ (fun h2 => hcc h2.symm)
          simp only [qCount, pCount] at hct ⊢
          rw [hnew]
          exact hct
    | push c hc hq =>
      refine ⟨?_, ?_, ?_⟩
      · have hB := cnt_set isBorrowedC s.clients c CSt.waiting CSt.borrowed hc
        have hW := cnt_set isWaitingC s.clients c CSt.waiting CSt.borrowed hc
        have hR := cnt_set isReadyC s.clients c CSt.waiting CSt.borrowed hc
        have hs := hI.slots
        simp [isBorrowedC, isWaitingC, isReadyC] at hB hW hR
        simp only [nBorrowed, nWaiting, nReady] at hs ⊢
        omega
      · have hW := cnt_set isWaitingC s.clients c CSt.waiting CSt.borrowed hc
        have hq2 : cnt Option.isSome (s.queue ++ [some c]) = cnt Option.isSome s.queue + 1 := by
          rw [cnt_append]; simp [cnt]
        have ht := hI.tokens
        simp [isWaitingC] at hW
        simp only [nWaiting, nReq, nProcTotal] at ht ⊢
        omega
      · intro c2
        have hct := hI.client_token c2
        by_cases hcc : c2 = c
        · subst hcc
          have hnew : (s.clients.set c2 CSt.waiting)[c2]? = some CSt.waiting :=
            getElem_set_self _ _ _ (getElem_lt_length hc)
          have hq2 : cnt (isPairOf c2) (s.queue ++ [some c2]) = cnt (isPairOf c2) s.queue + 1 := by
            rw [cnt_append]; simp [cnt, isPairOf]
          simp only [qCount, pCount] at hct ⊢
          rw [hc] at hct
          simp at hct
          simp [hnew, hq2]
          omega
        · have hnew : (s.clients.set c CSt.waiting)[c2]? = s.clients[c2]? :=
            getElem_set_other _ _ _ _ (fun h2 => hcc h2.symm)
          have hne : (c == c2) = false := by
            simp
            omega
          have hq2 : cnt (isPairOf c2) (s.queue ++ [some c]) = cnt (isPairOf c2) s.queue := by
            rw [cnt_append]; simp [cnt, isPairOf, hne]
          simp only [qCount, pCount] at hct ⊢
          rw [hnew, hq2]
          exact hct
    | dequeue_request w c rest hw hq =>
      refine ⟨hI.slots, ?_, ?_⟩
      · have hreq : nReq s = 1 + cnt Option.isSome rest := by
          rw [nReq, hq]; simp [cnt]
        have hP := cnt_set isProcessing s.workers w (WSt.processing c) WSt.awaiting hw
        have ht := hI.tokens
        simp [isProcessing] at hP
        simp only [nWaiting, nReq, nProcTotal] at ht hreq ⊢
        omega
      · intro c2
        have hct := hI.client_token c2
        have hP := cnt_set (isProcOf c2) s.workers w (WSt.processing c) WSt.awaiting hw
        by_cases hcc : c2 = c
        · subst hcc
          have hqs : cnt (isPairOf c2) s.queue = 1 + cnt (isPairOf c2) rest := by
            rw [hq]; simp [cnt, isPairOf]
          simp [isProcOf] at hP
          simp only [qCount, pCount] at hct ⊢
          omega
        · have hne : (c == c2) = false := by
            simp
            omega
          have hqs : cnt (isPairOf c2) s.queue = cnt (isPairOf c2) rest := by
            rw [hq]; simp [cnt, isPairOf, hne]
          simp [isProcOf, hne] at hP
          simp only [qCount, pCount] at hct ⊢
          omega
    | dequeue_sentinel w rest hw hq =>
      refine ⟨hI.slots, ?_, ?_⟩
      · have hreq : nReq s = cnt Option.isSome rest := by
          rw [nReq, hq]; simp [cnt]
        have hP := cnt_set isProcessing s.workers w WSt.stopped WSt.awaiting hw
        have ht := hI.tokens
        simp [isProcessing] at hP
        simp only [nWaiting, nReq, nProcTotal] at ht hreq ⊢
        omega
      · intro c2
        have hct := hI.client_token c2
        have hP := cnt_set (isProcOf c2) s.workers w WSt.stopped WSt.awaiting hw
        have hqs : cnt (isPairOf c2) s.queue = cnt (isPairOf c2) rest := by
          rw [hq]; simp [cnt, isPairOf]
        simp [isProcOf] at hP
        simp only [qCount, pCount] at hct ⊢
        omega
    | finish w c hw =>
      have hp1 : 1 ≤ pCount c s :=
        cnt_pos_of_getElem (isProcOf c) s.workers w (WSt.processing c) hw (by simp [isProcOf])
      have hctc := hI.client_token c
      have hcw : s.clients[c]? = some CSt.waiting := by
        by_contra hne
        rw [if_neg hne] at hctc
        omega
      rw [if_pos hcw] at hctc
      refine ⟨?_, ?_, ?_⟩
      · have hB := cnt_set isBorrowedC s.clients c CSt.ready CSt.waiting hcw
        have hW := cnt_set isWaitingC s.clients c CSt.ready CSt.waiting hcw
        have hR := cnt_set isReadyC s.clients c CSt.ready CSt.waiting hcw
        have hs := hI.slots
        simp [isBorrowedC, isWaitingC, isReadyC] at hB hW hR
        simp only [nBorrowed, nWaiting, nReady] at hs ⊢
        omega
      · have hW := cnt_set isWaitingC s.clients c CSt.ready CSt.waiting hcw
        have hP := cnt_set isProcessing s.workers w WSt.awaiting (WSt.processing c) hw
        have ht := hI.tokens
        simp [isWaitingC] at hW
        simp [isProcessing] at hP
        simp only [nWaiting, nReq, nProcTotal] at ht ⊢
        omega
      · intro c2
        have hct := hI.client_token c2
        have hP := cnt_set (isProcOf c2) s.workers w WSt.awaiting (WSt.processing c) hw
        by_cases hcc : c2 = c
        · subst hcc
          have hnew : (s.clients.set c2 CSt.ready)[c2]? = some CSt.ready :=
            getElem_set_self _ _ _ (getElem_lt_length hcw)
          simp [isProcOf] at hP
          simp only [qCount, pCount] at hct hctc hp1 ⊢
          simp [hnew]
          omega
        · have hnew : (s.clients.set c CSt.ready)[c2]? = s.clients[c2]? :=
            getElem_set_other _ _ _ _ (fun h2 => hcc h2.symm)
          have hne : (c == c2) = false := by
            simp
            omega
          simp [isProcOf, hne] at hP
          simp only [qCount, pCount] at hct ⊢
          rw [hnew]
          omega
    | read_result c hc =>
      refine ⟨?_, ?_, ?_⟩
      · have hB := cnt_set isBorrowedC s.clients c CSt.idle CSt.ready hc
        have hW := cnt_set isWaitingC s.clients c CSt.idle CSt.ready hc
        have hR := cnt_set isReadyC s.clients c CSt.idle CSt.ready hc
        have hs := hI.slots
        simp [isBorrowedC, isWaitingC, isReadyC] at hB hW hR
        simp only [nBorrowed, nWaiting, nReady] at hs ⊢
        omega
      · have hW := cnt_set isWaitingC s.clients c CSt.idle CSt.ready hc
        have ht := hI.tokens
        simp [isWaitingC] at hW
        simp only [nWaiting, nReq, nProcTotal] at ht ⊢
        omega
      · intro c2
        have hct := hI.client_token c2
        by_cases hcc : c2 = c
        · subst hcc
          have hnew : (s.clients.set c2 CSt.idle)[c2]? = some CSt.idle :=
            getElem_set_self _ _ _ (getElem_lt_length hc)
          simp only [qCount, pCount] at hct ⊢
          rw [hc] at hct
          simp at hct
          simp [hnew]
          omega
        · have hnew : (s.clients.set c CSt.idle)[c2]? = s.clients[c2]? :=
            getElem_set_other _ _ _ _ (fun h2 => hcc h2.symm)
          simp only [qCount, pCount] at hct ⊢
          rw [hnew]
          exact hct

end Manager

namespace Manager

/-- Every run-only step is also a step of the system with `close`. -/
theorem step_stepC {n : Nat} {s s1 : MState} (h : Step n s s1) : StepC n s s1 :=
  StepC.run s s1 h

/-- Run-only reachable states are reachable in the system with `close`. -/
theorem reach_reachC {n k : Nat} {s : MState} (h : Reach n k s) : ReachC n k s := by
  induction h with
  | init => exact ReachC.init
  | step s s1 _ hstep ih => exact ReachC.step s s1 ih (step_stepC hstep)

/-- The protocol invariant holds in every reachable state, `close`
included. -/
theorem inv_reach {n k : Nat} {s : MState} (h : ReachC n k s) : Inv n s := by
  induction h with
  | init => exact inv_init n k
  | step s s1 _ hstep ih => exact inv_step ih hstep

/-- Run-only steps never put a sentinel into the request channel. -/
theorem allSome_step {n : Nat} {s s1 : MState} (hA : AllSome s) (h : Step n s s1) :
    AllSome s1 := by
  cases h with
  | borrow c hc hp => exact hA
  | push c hc hq =>
    intro q hq2
    rcases List.mem_append.mp hq2 with h1 | h1
    · exact hA q h1
    · rcases List.mem_singleton.mp h1 with rfl
      rfl
  | dequeue_request w c rest hw hq =>
    intro q hq2
    exact hA q (by rw [hq]; exact List.mem_cons_of_mem _ hq2)
  | dequeue_sentinel w rest hw hq =>
    intro q hq2
    exact hA q (by rw [hq]; exact List.mem_cons_of_mem _ hq2)
  | finish w c hw => exact hA
  | read_result c hc => exact hA

/-- Before `close` is called, the request channel never holds a sentinel. -/
theorem allSome_reach {n k : Nat} {s : MState} (h : Reach n k s) : AllSome s := by
  induction h with
  | init => intro q hq; cases hq
  | step s s1 _ hstep ih => exact allSome_step ih hstep

/-- C1: on a constructed pool, whenever a `run` caller has borrowed a slot
and is about to push, the bounded request channel (capacity `n`) holds
strictly fewer than `n` items, so the `put_nowait` appends the
`(request, slot)` pair and its `queue.Full` error branch is never taken;
a blocking push would behave identically since the full case is
unreachable. -/
theorem run_enqueue_never_full (n k : Nat) (s : MState) (c : Nat)
    (hr : Reach n k s) (hc : s.clients[c]? = some CSt.borrowed) :
    request_put_nowait n s c =
      Except.ok { s with queue := s.queue ++ [some c], clients := s.clients.set c CSt.waiting } := by
  have hI : Inv n s := inv_reach (reach_reachC hr)
  have hA : AllSome s := allSome_reach hr
  have hb1 : 1 ≤ nBorrowed s :=
    cnt_pos_of_getElem isBorrowedC s.clients c CSt.borrowed hc (by simp [isBorrowedC])
  have hlen : nReq s = s.queue.length := cnt_eq_length _ _ hA
  have hlt : s.queue.length < n := by
    have h1 := hI.slots
    have h2 := hI.tokens
    omega
  unfold request_put_nowait
  rw [if_pos hlt]

/-- Witness for C1: with one worker and one caller that has just borrowed
the only slot, the push succeeds. -/
theorem run_enqueue_never_full_witness :
    request_put_nowait 1 ⟨0, [], [CSt.borrowed], [WSt.awaiting]⟩ 0 =
      Except.ok ⟨0, [some 0], [CSt.waiting], [WSt.awaiting]⟩ :=
  run_enqueue_never_full 1 1 _ 0
    (Reach.step _ _ Reach.init (Step.borrow _ 0 (by decide) (by decide)))
    (by decide)

/-- C5 counterexample: with one worker, after a single `run` call has
borrowed the slot and pushed its request (the request still un-dequeued),
the request channel is full, so the non-blocking sentinel push performed
by `close` raises `queue.Full` instead of succeeding: `close` does not
always succeed while `N` run calls are in flight. -/
theorem close_full_counterexample :
    ReachC 1 1 ⟨0, [some 0], [CSt.waiting], [WSt.awaiting]⟩ ∧
    (⟨0, [some 0], [CSt.waiting], [WSt.awaiting]⟩ : MState).clients[0]? = some CSt.waiting ∧
    close_put_nowait 1 ⟨0, [some 0], [CSt.waiting], [WSt.awaiting]⟩ = Except.error () := by
  refine ⟨?_, rfl, rfl⟩
  exact ReachC.step _ _
    (ReachC.step _ _ ReachC.init (StepC.run _ _ (Step.borrow _ 0 (by decide) (by decide))))
    (StepC.run _ _ (Step.push _ 0 (by decide) (by decide)))

/-- Helper: the sentinel loop of `close` succeeds when the channel has
room for all its pushes, appending exactly that many sentinels. -/
theorem closeSeq_ok (n : Nat) : ∀ (k : Nat) (s : MState), s.queue.length + k ≤ n →
    closeSeq n k s = Except.ok { s with queue := s.queue ++ List.replicate k none } := by
  intro k
  induction k with
  | zero =>
    intro s h
    simp [closeSeq]
  | succ k2 ih =>
    intro s h
    have hlt : s.queue.length < n := by omega
    have h2 : ({ s with queue := s.queue ++ [none] } : MState).queue.length + k2 ≤ n := by
      simp
      omega
    have hcp : close_put_nowait n s = Except.ok { s with queue := s.queue ++ [none] } := by
      unfold close_put_nowait
      rw [if_pos hlt]
    rw [closeSeq, hcp]
    show closeSeq n k2 { s with queue := s.queue ++ [none] } = _
    rw [ih _ h2]
    simp [List.replicate_succ]

end Manager

namespace Manager

/-- C5 (amended): `close` enqueues its one-sentinel-per-worker batch with
non-blocking pushes, so (i) when the request channel is empty (every
in-flight request already dequeued by a worker) it succeeds and deposits
exactly `n` sentinels; (ii) a single sentinel push succeeds exactly when
the channel is not full, and raises `queue.Full` otherwise; (iii) a worker
that dequeued a sentinel has left its loop for good; (iv) a worker blocked
on the channel whose head is a sentinel exits after its current dequeue;
(v) any worker still processing a request serves a caller that is still
waiting on its borrowed slot, so in-flight calls keep their result
channel. -/
theorem close_spec :
    (∀ (n : Nat) (s : MState), s.queue = [] →
      close n s = Except.ok { s with queue := List.replicate n none }) ∧
    (∀ (n : Nat) (s : MState),
      (∃ t, close_put_nowait n s = Except.ok t) ↔ s.queue.length < n) ∧
    (∀ (n : Nat) (s s1 : MState) (w : Nat), StepC n s s1 →
      s.workers[w]? = some WSt.stopped → s1.workers[w]? = some WSt.stopped) ∧
    (∀ (n : Nat) (s : MState) (w : Nat) (rest : List (Option Nat)),
      s.workers[w]? = some WSt.awaiting → s.queue = none :: rest →
      StepC n s { s with queue := rest, workers := s.workers.set w WSt.stopped }) ∧
    (∀ (n k : Nat) (s : MState) (w c : Nat), ReachC n k s →
      s.workers[w]? = some (WSt.processing c) → s.clients[c]? = some CSt.waiting) := by
  refine ⟨?_, ?_, ?_, ?_, ?_⟩
  · intro n s hq
    have : s.queue.length + n ≤ n := by rw [hq]; simp
    have h2 := closeSeq_ok n n s this
    rw [hq] at h2
    rw [close, h2]
    simp
  · intro n s
    constructor
    · rintro ⟨t, ht⟩
      by_contra hge
      unfold close_put_nowait at ht
      rw [if_neg hge] at ht
      cases ht
    · intro hlt
      exact ⟨_, by unfold close_put_nowait; rw [if_pos hlt]⟩
  · intro n s s1 w h hst
    cases h with
    | close_push hq => exact hst
    | run s2 hstep =>
      cases hstep with
      | borrow c hc hp => exact hst
      | push c hc hq => exact hst
      | dequeue_request w2 c rest hw hq =>
        have hne : w2 ≠ w := by
          intro he
          rw [he, hst] at hw
          cases hw
        show (s.workers.set w2 (WSt.processing c))[w]? = some WSt.stopped
        rw [getElem_set_other _ _ _ _ hne]
        exact hst
      | dequeue_sentinel w2 rest hw hq =>
        have hne : w2 ≠ w := by
          intro he
          rw [he, hst] at hw
          cases hw
        show (s.workers.set w2 WSt.stopped)[w]? = some WSt.stopped
        rw [getElem_set_other _ _ _ _ hne]
        exact hst
      | finish w2 c hw =>
        have hne : w2 ≠ w := by
          intro he
          rw [he, hst] at hw
          cases hw
        show (s.workers.set w2 WSt.awaiting)[w]? = some WSt.stopped
        rw [getElem_set_other _ _ _ _ hne]
        exact hst
      | read_result c hc => exact hst
  · intro n s w rest hw hq
    exact StepC.run _ _ (Step.dequeue_sentinel s w rest hw hq)
  · intro n k s w c hr hw
    have hI := inv_reach hr
    have hp1 : 1 ≤ pCount c s :=
      cnt_pos_of_getElem (isProcOf c) s.workers w (WSt.processing c) hw (by simp [isProcOf])
    have hct := hI.client_token c
    by_contra hne
    rw [if_neg hne] at hct
    omega

/-- Witness for C5's amended statement: each conjunct applied at a
concrete pool of one worker. -/
theorem close_spec_witness :
    close 1 (initState 1 1) = Except.ok ⟨1, [none], [CSt.idle], [WSt.awaiting]⟩ ∧
    (∃ t, close_put_nowait 1 (initState 1 1) = Except.ok t) ∧
    ((⟨1, [none], [CSt.idle], [WSt.stopped]⟩ : MState).workers[0]? = some WSt.stopped) ∧
    StepC 1 ⟨1, [none], [CSt.idle], [WSt.awaiting]⟩ ⟨1, [], [CSt.idle], [WSt.stopped]⟩ ∧
    (⟨0, [], [CSt.waiting], [WSt.processing 0]⟩ : MState).clients[0]? = some CSt.waiting := by
  refine ⟨close_spec.1 1 (initState 1 1) rfl, close_spec.2.1 1 (initState 1 1) |>.mpr (by decide), ?_, ?_, ?_⟩
  · exact close_spec.2.2.1 1 ⟨1, [], [CSt.idle], [WSt.stopped]⟩ _ 0
      (StepC.close_push _ (by decide)) rfl
  · exact close_spec.2.2.2.1 1 ⟨1, [none], [CSt.idle], [WSt.awaiting]⟩ 0 [] rfl rfl
  · exact close_spec.2.2.2.2 1 1 ⟨0, [], [CSt.waiting], [WSt.processing 0]⟩ 0 0
      (ReachC.step _ _
        (ReachC.step _ _
          (ReachC.step _ _ ReachC.init (StepC.run _ _ (Step.borrow _ 0 (by decide) (by decide))))
          (StepC.run _ _ (Step.push _ 0 (by decide) (by decide))))
        (StepC.run _ _ (Step.dequeue_request _ 0 0 [] rfl rfl)))
      rfl

/-- C8: after `register.get()` returns, `run` pushes the borrowed slot
back into the pool unconditionally, on the success and on the failure
deposit alike, and then returns the handler's response exactly when the
success flag was set and re-raises the handler's captured error exactly
when the handler raised; moreover no slot is ever lost: in every reachable
state the `n` slots are partitioned among the pool and the in-flight
callers. -/
theorem run_returns_slot_unconditionally :
    (∀ (ε υ : Type) (pool : List Slot) (register : Slot),
      (∀ u : υ, run_receive (ε := ε) pool register (runner_deposit (Except.ok u)) =
        (pool ++ [register], Except.ok u)) ∧
      (∀ e : ε, run_receive (υ := υ) pool register (runner_deposit (Except.error e)) =
        (pool ++ [register], Except.error e))) ∧
    (∀ (n k : Nat) (s : MState), Reach n k s →
      s.pool + nBorrowed s + nWaiting s + nReady s = n) := by
  constructor
  · intro ε υ pool register
    exact ⟨fun u => rfl, fun e => rfl⟩
  · intro n k s hr
    exact (inv_reach (reach_reachC hr)).slots

/-- Witness for C8: a concrete successful and failing handler outcome,
and slot conservation in a freshly constructed pool of two workers. -/
theorem run_returns_slot_unconditionally_witness :
    run_receive (ε := String) [] Slot.mk (runner_deposit (Except.ok (5 : Nat))) =
      ([Slot.mk], Except.ok 5) ∧
    run_receive (υ := Nat) [] Slot.mk (runner_deposit (Except.error "boom")) =
      ([Slot.mk], Except.error "boom") ∧
    (initState 2 3).pool + nBorrowed (initState 2 3) + nWaiting (initState 2 3) +
      nReady (initState 2 3) = 2 :=
  ⟨(run_returns_slot_unconditionally.1 String Nat [] Slot.mk).1 5,
   (run_returns_slot_unconditionally.1 String Nat [] Slot.mk).2 "boom",
   run_returns_slot_unconditionally.2 2 3 (initState 2 3) Reach.init⟩

end Manager

namespace Manager

/-- Helper: when every report is a success, the construction loop returns
normally. -/
theorem initCollect_all_none {ε : Type} :
    ∀ (num : Nat) (reports : List (Option ε)), (∀ r ∈ reports, r = none) →
    initCollect num reports = Except.ok () := by
  intro num reports
  induction reports generalizing num with
  | nil => intro h; cases num <;> simp [initCollect]
  | cons r rest ih =>
    intro h
    have hr : r = none := h r (by simp)
    subst hr
    cases num with
    | zero => simp [initCollect]
    | succ k =>
      simp [initCollect]
      exact ih k fun r2 h2 => h r2 (by simp [h2])

/-- Helper: when every report is a success, the loop performs one `get`
per worker. -/
theorem initGets_all_none {ε : Type} :
    ∀ (num : Nat) (reports : List (Option ε)), reports.length = num →
    (∀ r ∈ reports, r = none) → initGets num reports = num := by
  intro num reports
  induction reports generalizing num with
  | nil =>
    intro hlen h
    subst hlen
    simp [initGets]
  | cons r rest ih =>
    intro hlen h
    have hr : r = none := h r (by simp)
    subst hr
    cases num with
    | zero => simp at hlen
    | succ k =>
      simp at hlen
      simp [initGets]
      have := ih k hlen fun r2 h2 => h r2 (by simp [h2])
      omega

/-- Helper: the first error report in arrival order is re-raised. -/
theorem initCollect_first_error {ε : Type} :
    ∀ (num : Nat) (pre post : List (Option ε)) (e : ε), pre.length < num →
    (∀ r ∈ pre, r = none) → initCollect num (pre ++ some e :: post) = Except.error e := by
  intro num pre
  induction pre generalizing num with
  | nil =>
    intro post e hlt h
    cases num with
    | zero => simp at hlt
    | succ k => simp [initCollect]
  | cons r rest ih =>
    intro post e hlt h
    have hr : r = none := h r (by simp)
    subst hr
    cases num with
    | zero => simp at hlt
    | succ k =>
      simp [initCollect]
      exact ih k post e (by simp at hlt; omega) fun r2 h2 => h r2 (by simp [h2])

/-- Helper: the loop stops getting right after the first error. -/
theorem initGets_first_error {ε : Type} :
    ∀ (num : Nat) (pre post : List (Option ε)) (e : ε), pre.length < num →
    (∀ r ∈ pre, r = none) → initGets num (pre ++ some e :: post) = pre.length + 1 := by
  intro num pre
  induction pre generalizing num with
  | nil =>
    intro post e hlt h
    cases num with
    | zero => simp at hlt
    | succ k => simp [initGets]
  | cons r rest ih =>
    intro post e hlt h
    have hr : r = none := h r (by simp)
    subst hr
    cases num with
    | zero => simp at hlt
    | succ k =>
      simp [initGets]
      have := ih k post e (by simp at hlt; omega) fun r2 h2 => h r2 (by simp [h2])
      omega

/-- C7 counterexample: with three workers whose reports arrive as
success, failure, success, construction re-raises the failure after only
two `get` calls, so the third worker's result is left in the response
channel, not drained. -/
theorem init_no_drain_counterexample :
    managerInit 3 ([none, some "boom", none] : List (Option String)) = Except.error "boom" ∧
    initGets 3 ([none, some "boom", none] : List (Option String)) = 2 ∧
    ¬ initGets 3 ([none, some "boom", none] : List (Option String)) = 3 := by
  exact ⟨rfl, rfl, by decide⟩

/-- C7 (amended): construction consumes factory reports in arrival order;
when all `n` invocations report success it performs exactly `n` gets and
deposits exactly `n` single-slot response channels into the slot pool;
when some invocation fails, the first reported error is re-raised
immediately, after first-error-position-plus-one gets, leaving the later
reports undrained in the response channel. -/
theorem manager_init_spec :
    (∀ (ε : Type) (num : Nat) (reports : List (Option ε)),
      reports.length = num → (∀ r ∈ reports, r = none) →
      managerInit num reports = Except.ok (List.replicate num Slot.mk) ∧
      (List.replicate num Slot.mk).length = num ∧
      initGets num reports = num) ∧
    (∀ (ε : Type) (num : Nat) (pre post : List (Option ε)) (e : ε),
      pre.length < num → (∀ r ∈ pre, r = none) →
      managerInit num (pre ++ some e :: post) = Except.error e ∧
      initGets num (pre ++ some e :: post) = pre.length + 1) := by
  constructor
  · intro ε num reports hlen h
    refine ⟨?_, by simp, initGets_all_none num reports hlen h⟩
    unfold managerInit
    rw [initCollect_all_none num reports h]
  · intro ε num pre post e hlt h
    refine ⟨?_, initGets_first_error num pre post e hlt h⟩
    unfold managerInit
    rw [initCollect_first_error num pre post e hlt h]

/-- Witness for C7's amended statement at concrete report sequences. -/
theorem manager_init_spec_witness :
    managerInit 2 ([none, none] : List (Option String)) = Except.ok [Slot.mk, Slot.mk] ∧
    initGets 2 ([none, none] : List (Option String)) = 2 ∧
    managerInit 3 ([none] ++ some "e" :: [none]) = Except.error "e" ∧
    initGets 3 ([none] ++ some "e" :: [none]) = 2 := by
  refine ⟨?_, ?_, ?_, ?_⟩
  · exact (manager_init_spec.1 String 2 [none, none] rfl (by decide)).1
  · exact (manager_init_spec.1 String 2 [none, none] rfl (by decide)).2.2
  · exact (manager_init_spec.2 String 3 [none] [none] "e" (by decide) (by decide)).1
  · exact (manager_init_spec.2 String 3 [none] [none] "e" (by decide) (by decide)).2

/-- C10: `init_lock` is a class attribute, created once when the class
body ran, and `__init__` never shadows it on instances, so every pool
instance resolves `self.init_lock` to the same lock; consequently two
factory invocations each holding their own pool's `init_lock` are one and
the same invocation, and factory runs of concurrently constructed pools
are serialized against each other. -/
theorem init_lock_shared :
    (∀ m1 m2 : MInstance, m1.init_lock_of = m2.init_lock_of) ∧
    (∀ (insts : Nat → MInstance) (tbl : Nat → Option (Nat × Nat)) (p1 w1 p2 w2 : Nat),
      runningFactory insts tbl p1 w1 → runningFactory insts tbl p2 w2 →
      p1 = p2 ∧ w1 = w2) := by
  constructor
  · intro m1 m2
    rfl
  · intro insts tbl p1 w1 p2 w2 h1 h2
    unfold runningFactory at h1 h2
    have hsame : ((insts p1).init_lock_of).id = ((insts p2).init_lock_of).id := rfl
    rw [hsame] at h1
    have h3 := h1.symm.trans h2
    have h4 := Option.some.inj h3
    injection h4 with hp hw
    exact ⟨hp, hw⟩

/-- Witness for C10 with two concrete instances and a lock table holding
one factory invocation. -/
theorem init_lock_shared_witness :
    (⟨1⟩ : MInstance).init_lock_of = (⟨2⟩ : MInstance).init_lock_of ∧ ((3 : Nat) = 3 ∧ (4 : Nat) = 4) :=
  ⟨init_lock_shared.1 ⟨1⟩ ⟨2⟩,
   init_lock_shared.2 (fun _ => ⟨1⟩) (fun _ => some (3, 4)) 3 4 3 4 rfl rfl⟩

end Manager

namespace RunJob

/-- C2: the source parser agrees pointwise with the spec's
characterization (invalid exactly when the scheme token is missing, the
container segment is empty, or the object segment is missing or empty;
one error kind, carrying the invalid-path message), and reproduces the
spec's four examples. -/
theorem parse_gcs_path_spec :
    (∀ s : String, _parse_gcs_path s =
      if specInvalidLocator s then Except.error ("Invalid GCS path: " ++ s)
      else Except.ok (containerOf s, objectOf s)) ∧
    _parse_gcs_path "gs://bucket/a/b" = Except.ok ("bucket", "a/b") ∧
    _parse_gcs_path "bucket/a/b" = Except.error ("Invalid GCS path: " ++ "bucket/a/b") ∧
    _parse_gcs_path "gs://bucket" = Except.error ("Invalid GCS path: " ++ "gs://bucket") ∧
    _parse_gcs_path "gs:///obj" = Except.error ("Invalid GCS path: " ++ "gs:///obj") := by
  refine ⟨?_, rfl, rfl, rfl, rfl⟩
  intro s
  unfold _parse_gcs_path specInvalidLocator containerOf objectOf
  cases h1 : startswith "gs://".toList s.toList with
  | false => simp [h1]
  | true =>
    simp only [h1, Bool.not_true, Bool.false_or]
    cases h2 : (split1 '/' (s.toList.drop 5)).2 with
    | none =>
      simp only [h2]
      simp
    | some b =>
      simp only [h2]
      by_cases h3 : (split1 '/' (s.toList.drop 5)).1.isEmpty
      · simp [h3]
      · by_cases h4 : b.isEmpty
        · simp [h3, h4]
        · simp [h3, h4]

/-- Helper: the started counter after a trace. -/
theorem runOps_started : ∀ (ops : List LifecycleOp) (s : RunJobState),
    (runOps s ops).started_jobs = s.started_jobs + countStarted ops := by
  intro ops
  induction ops with
  | nil => intro s; simp [runOps, countStarted, cnt]
  | cons o rest ih =>
    intro s
    have h2 := ih (applyOp s o)
    simp only [runOps, List.foldl_cons] at h2 ⊢
    rw [h2]
    cases o <;> simp [applyOp, mark_started, mark_finished, log, countStarted, cnt]
    omega

/-- Helper: the finished counter after a trace. -/
theorem runOps_finished : ∀ (ops : List LifecycleOp) (s : RunJobState),
    (runOps s ops).finished_jobs = s.finished_jobs + countFinished ops := by
  intro ops
  induction ops with
  | nil => intro s; simp [runOps, countFinished, cnt]
  | cons o rest ih =>
    intro s
    have h2 := ih (applyOp s o)
    simp only [runOps, List.foldl_cons] at h2 ⊢
    rw [h2]
    cases o <;> simp [applyOp, mark_started, mark_finished, log, countFinished, cnt]
    omega

/-- C3 counterexample: the oneoff entry point, given one input blob with
no corresponding output, calls `_process_request` (and so `mark_finished`)
directly without any `mark_started`, leaving a snapshot with
`finished_jobs = 1 > started_jobs = 0`. -/
theorem oneoff_counters_counterexample :
    (Oneoff.main ["_stem420/job1/input/song.mp3"] [] (some "Traceback") initialState).started_jobs = 0 ∧
    (Oneoff.main ["_stem420/job1/input/song.mp3"] [] (some "Traceback") initialState).finished_jobs = 1 ∧
    ¬ ((Oneoff.main ["_stem420/job1/input/song.mp3"] [] (some "Traceback") initialState).finished_jobs ≤
        (Oneoff.main ["_stem420/job1/input/song.mp3"] [] (some "Traceback") initialState).started_jobs) := by
  refine ⟨by decide, by decide, by decide⟩

/-- C3 (amended): both lifecycle counters are monotonically non-decreasing
under every interleaving of the atomic (lock-protected) operations, and a
snapshot taken after a trace with at least as many `mark_started` as
`mark_finished` calls (as when every pipeline finalize is matched by a
preceding Submit) satisfies `finished_jobs ≤ started_jobs`; the oneoff
entry point breaks the bound by invoking the pipeline without
`mark_started`. -/
theorem lifecycle_counters_spec :
    (∀ (s : RunJobState) (ops : List LifecycleOp),
      s.started_jobs ≤ (runOps s ops).started_jobs ∧
      s.finished_jobs ≤ (runOps s ops).finished_jobs) ∧
    (∀ ops : List LifecycleOp, countFinished ops ≤ countStarted ops →
      (runOps initialState ops).finished_jobs ≤ (runOps initialState ops).started_jobs) := by
  constructor
  · intro s ops
    rw [runOps_started ops s, runOps_finished ops s]
    omega
  · intro ops h
    rw [runOps_started ops initialState, runOps_finished ops initialState]
    simp [initialState]
    omega

/-- Witness for C3's amended statement on concrete traces. -/
theorem lifecycle_counters_spec_witness :
    (initialState.started_jobs ≤ (runOps initialState [LifecycleOp.markStartedOp]).started_jobs ∧
     initialState.finished_jobs ≤ (runOps initialState [LifecycleOp.markStartedOp]).finished_jobs) ∧
    (runOps initialState [LifecycleOp.markStartedOp, LifecycleOp.markFinishedOp]).finished_jobs ≤
      (runOps initialState [LifecycleOp.markStartedOp, LifecycleOp.markFinishedOp]).started_jobs :=
  ⟨lifecycle_counters_spec.1 initialState [LifecycleOp.markStartedOp],
   lifecycle_counters_spec.2 [LifecycleOp.markStartedOp, LifecycleOp.markFinishedOp] (by decide)⟩

/-- Helper: logging a batch of lines appends them in order and leaves the
counters alone. -/
theorem foldl_log_state : ∀ (ls : List String) (s : RunJobState),
    ls.foldl log s = ⟨s.logs ++ ls, s.started_jobs, s.finished_jobs⟩ := by
  intro ls
  induction ls with
  | nil => intro s; simp
  | cons m rest ih =>
    intro s
    simp only [List.foldl_cons]
    rw [ih (log s m)]
    simp [log]

/-- C6: whatever the pipeline stages did, `_process_request` increments
`finished_jobs` exactly once, never touches `started_jobs`, logs the
success entry on success and the error entry followed by the full
diagnostic trace on a caught exception, and propagates nothing to its
caller (the second component, what the function raises, is always
`none`). -/
theorem process_request_finalize :
    ∀ (request : Request) (bodyLogs : List String) (outcome : Option String) (s : RunJobState),
      (_process_request request bodyLogs outcome s).2 = none ∧
      (_process_request request bodyLogs outcome s).1.finished_jobs = s.finished_jobs + 1 ∧
      (_process_request request bodyLogs outcome s).1.started_jobs = s.started_jobs ∧
      (outcome = none →
        (_process_request request bodyLogs outcome s).1.logs =
          s.logs ++ ["run_job.process.start mp3_path=" ++ request.mp3_path
            ++ " output_path=" ++ request.output_path] ++ bodyLogs
            ++ ["run_job.process.success"]) ∧
      (∀ tb, outcome = some tb →
        (_process_request request bodyLogs outcome s).1.logs =
          s.logs ++ ["run_job.process.start mp3_path=" ++ request.mp3_path
            ++ " output_path=" ++ request.output_path] ++ bodyLogs
            ++ ["run_job.process.error", tb]) := by
  intro request bodyLogs outcome s
  cases outcome with
  | none =>
    refine ⟨rfl, ?_, ?_, ?_, ?_⟩
    · simp [_process_request, log, mark_finished, foldl_log_state]
    · simp [_process_request, log, mark_finished, foldl_log_state]
    · intro _
      simp [_process_request, log, mark_finished, foldl_log_state]
    · intro tb htb
      cases htb
  | some tb =>
    refine ⟨rfl, ?_, ?_, ?_, ?_⟩
    · simp [_process_request, log, mark_finished, foldl_log_state]
    · simp [_process_request, log, mark_finished, foldl_log_state]
    · intro hn
      cases hn
    · intro tb2 htb
      injection htb with he
      subst he
      simp [_process_request, log, mark_finished, foldl_log_state]

/-- Witness for C6: a concrete request with a succeeding and with a
failing pipeline body. -/
theorem process_request_finalize_witness :
    (_process_request ⟨"gs://b/i.mp3", "gs://b/o/"⟩ [] none initialState).2 = none ∧
    (_process_request ⟨"gs://b/i.mp3", "gs://b/o/"⟩ [] none initialState).1.finished_jobs = 1 ∧
    (_process_request ⟨"gs://b/i.mp3", "gs://b/o/"⟩ [] none initialState).1.logs =
      [] ++ ["run_job.process.start mp3_path=" ++ "gs://b/i.mp3" ++ " output_path=" ++ "gs://b/o/"]
        ++ [] ++ ["run_job.process.success"] ∧
    (_process_request ⟨"gs://b/i.mp3", "gs://b/o/"⟩ [] (some "tb") initialState).1.logs =
      [] ++ ["run_job.process.start mp3_path=" ++ "gs://b/i.mp3" ++ " output_path=" ++ "gs://b/o/"]
        ++ [] ++ ["run_job.process.error", "tb"] :=
  ⟨(process_request_finalize ⟨"gs://b/i.mp3", "gs://b/o/"⟩ [] none initialState).1,
   (process_request_finalize ⟨"gs://b/i.mp3", "gs://b/o/"⟩ [] none initialState).2.1,
   (process_request_finalize ⟨"gs://b/i.mp3", "gs://b/o/"⟩ [] none initialState).2.2.2.1 rfl,
   (process_request_finalize ⟨"gs://b/i.mp3", "gs://b/o/"⟩ [] (some "tb") initialState).2.2.2.2 "tb" rfl⟩

/-- C9: `run_job` increments `started_jobs` once, spawns the pipeline on a
fresh detached thread (not a pool worker) carrying exactly the submitted
request, performs none of the pipeline's effects before returning
(`finished_jobs` and the log are untouched), and returns the empty
acknowledgment, the same `Response` value for every request, state and
eventual pipeline outcome. -/
theorem run_job_submit :
    ∀ (request : Request) (s : RunJobState),
      (run_job request s).1.started_jobs = s.started_jobs + 1 ∧
      (run_job request s).1.finished_jobs = s.finished_jobs ∧
      (run_job request s).1.logs = s.logs ∧
      (run_job request s).2.2 = (ExecContext.detachedThread, request) ∧
      (∀ (request2 : Request) (s2 : RunJobState),
        (run_job request s).2.1 = (run_job request2 s2).2.1) ∧
      (∀ r : Response, (run_job request s).2.1 = r) := by
  intro request s
  exact ⟨rfl, rfl, rfl, rfl, fun _ _ => rfl, fun r => by cases r; rfl⟩

end RunJob

namespace RunJob

theorem isDir_false_of_isFile {e : Entry} (h : isFile e = true) : isDir e = false := by
  cases e with
  | file n => rfl
  | dir n es => cases h

theorem foldlM_replaceInto_fresh : ∀ (fs root : List Entry),
    (∀ f ∈ fs, entryName f ∉ names root) → (names fs).Nodup →
    fs.foldlM replaceInto root = Except.ok (root ++ fs) := by
  intro fs
  induction fs with
  | nil => intro root h1 h2; simp [List.foldlM_nil]; rfl
  | cons f rest ih =>
    intro root h1 h2
    have hfind : root.find? (fun e => entryName e == entryName f) = none := by
      apply List.find?_eq_none.mpr
      intro x hx
      simp only [beq_iff_eq]
      intro hxe
      exact h1 f (by simp) (hxe ▸ List.mem_map_of_mem entryName hx)
    simp only [List.foldlM_cons]
    rw [replaceInto, hfind]
    show rest.foldlM replaceInto (root ++ [f]) = Except.ok (root ++ f :: rest)
    have h3 : ∀ g ∈ rest, entryName g ∉ names (root ++ [f]) := by
      intro g hg
      simp only [names, List.map_append, List.map_cons, List.map_nil] at h1 ⊢
      simp only [List.mem_append, List.mem_singleton]
      rintro (hcase | hcase)
      · exact h1 g (by simp [hg]) hcase
      · simp [names] at h2
        exact h2.1 g hg hcase
    have h4 : (names rest).Nodup := by
      simp [names] at h2 ⊢
      exact h2.2
    rw [ih (root ++ [f]) h3 h4]
    simp

theorem names_cons (e : Entry) (l : List Entry) : names (e :: l) = entryName e :: names l := rfl

theorem names_append (l1 l2 : List Entry) : names (l1 ++ l2) = names l1 ++ names l2 := by
  simp [names]

theorem mem_names_of_mem {e : Entry} {l : List Entry} (h : e ∈ l) : entryName e ∈ names l :=
  List.mem_map_of_mem entryName h

theorem exists_of_mem_names {a : String} {l : List Entry} (h : a ∈ names l) :
    ∃ e ∈ l, entryName e = a := by
  simpa [names] using List.mem_map.mp h

theorem movedOf_isFile (m : Entry) : ∀ f ∈ movedOf m, isFile f = true := by
  intro f hf
  unfold movedOf at hf
  obtain ⟨t, ht, hf2⟩ := List.mem_flatMap.mp hf
  exact (List.mem_filter.mp hf2).2

theorem nodup_append_not_mem {α : Type} {l1 l2 : List α} {a : α}
    (h : (l1 ++ l2).Nodup) (h1 : a ∈ l1) (h2 : a ∈ l2) : False :=
  (List.disjoint_of_nodup_append h) h1 h2

theorem flatten_go : ∀ (ms done : List Entry),
    (∀ m ∈ ms, isDir m = true) →
    (∀ e ∈ done, isFile e = true) →
    (names ms ++ names (ms.flatMap movedOf)).Nodup →
    (∀ e ∈ done, entryName e ∉ names ms ++ names (ms.flatMap movedOf)) →
    List.foldlM processModelDir (ms ++ done) ms = Except.ok (done ++ ms.flatMap movedOf) := by
  intro ms
  induction ms with
  | nil =>
    intro done h1 h2 hnd hdj
    simp [List.foldlM_nil]
    rfl
  | cons m rest ih =>
    intro done h1 h2 hnd hdj
    have hmdir : isDir m = true := h1 m (by simp)
    rw [List.flatMap_cons, names_cons, names_append] at hnd
    have hhead : entryName m ∉ names rest := (List.nodup_cons.mp hnd.of_append_left).1
    have hdisj : (entryName m :: names rest).Disjoint
        (names (movedOf m) ++ names (rest.flatMap movedOf)) :=
      List.disjoint_of_nodup_append hnd
    have hnd2 : (names (movedOf m) ++ names (rest.flatMap movedOf)).Nodup :=
      hnd.of_append_right
    have hdisj2 : (names (movedOf m)).Disjoint (names (rest.flatMap movedOf)) :=
      List.disjoint_of_nodup_append hnd2
    have hfresh : ∀ f ∈ movedOf m, entryName f ∉ names ((m :: rest) ++ done) := by
      intro f hf
      have hfn : entryName f ∈ names (movedOf m) := mem_names_of_mem hf
      rw [names_append, names_cons]
      intro hmem
      rcases List.mem_append.mp hmem with hcase | hcase
      · exact hdisj hcase (List.mem_append.mpr (Or.inl hfn))
      · obtain ⟨e, he, hen⟩ := exists_of_mem_names hcase
        apply hdj e he
        rw [names_cons, List.flatMap_cons, names_append]
        have hin2 : entryName e ∈ names (movedOf m) := hen ▸ hfn
        simp only [List.mem_cons, List.mem_append]
        tauto
    have hndmv : (names (movedOf m)).Nodup := hnd2.of_append_left
    have hins := foldlM_replaceInto_fresh (movedOf m) ((m :: rest) ++ done) hfresh hndmv
    have hfilter :
        (((m :: rest) ++ done) ++ movedOf m).filter
            (fun e => !(isDir e && entryName e == entryName m)) =
          (rest ++ done) ++ movedOf m := by
      rw [List.cons_append, List.filter_append, List.filter_cons]
      have hkm : (!(isDir m && entryName m == entryName m)) = false := by
        simp [hmdir]
      rw [hkm]
      simp only [Bool.false_eq_true, if_false]
      have hrest : (rest ++ done).filter (fun e => !(isDir e && entryName e == entryName m)) =
          rest ++ done := by
        apply List.filter_eq_self.mpr
        intro e he
        rcases List.mem_append.mp he with hcase | hcase
        · have hne : (entryName e == entryName m) = false := by
            apply beq_eq_false_iff_ne.mpr
            intro heq
            exact hhead (heq ▸ mem_names_of_mem hcase)
          simp [hne]
        · simp [isDir_false_of_isFile (h2 e hcase)]
      have hmv : (movedOf m).filter (fun e => !(isDir e && entryName e == entryName m)) =
          movedOf m := by
        apply List.filter_eq_self.mpr
        intro e he
        simp [isDir_false_of_isFile (movedOf_isFile m e he)]
      rw [hrest, hmv]
    have hpm : processModelDir ((m :: rest) ++ done) m =
        Except.ok ((rest ++ done) ++ movedOf m) := by
      unfold processModelDir
      rw [hins]
      show Except.ok ((((m :: rest) ++ done) ++ movedOf m).filter
        (fun e => !(isDir e && entryName e == entryName m))) = _
      rw [hfilter]
    have h1r : ∀ m2 ∈ rest, isDir m2 = true := fun m2 hm2 => h1 m2 (by simp [hm2])
    have h2r : ∀ e ∈ done ++ movedOf m, isFile e = true := by
      intro e he
      rcases List.mem_append.mp he with hcase | hcase
      · exact h2 e hcase
      · exact movedOf_isFile m e hcase
    have hsub : (names rest ++ names (rest.flatMap movedOf)).Sublist
        ((entryName m :: names rest) ++
          (names (movedOf m) ++ names (rest.flatMap movedOf))) :=
      List.Sublist.append (List.sublist_cons_self _ _) (List.sublist_append_right _ _)
    have hndr : (names rest ++ names (rest.flatMap movedOf)).Nodup := hnd.sublist hsub
    have hdjr : ∀ e ∈ done ++ movedOf m,
        entryName e ∉ names rest ++ names (rest.flatMap movedOf) := by
      intro e he hmem
      rcases List.mem_append.mp he with hcase | hcase
      · apply hdj e hcase
        rw [names_cons, List.flatMap_cons, names_append]
        rcases List.mem_append.mp hmem with hin | hin
        · exact List.mem_append.mpr (Or.inl (List.mem_cons_of_mem _ hin))
        · exact List.mem_append.mpr (Or.inr (List.mem_append.mpr (Or.inr hin)))
      · have hfn : entryName e ∈ names (movedOf m) := mem_names_of_mem hcase
        rcases List.mem_append.mp hmem with hin | hin
        · exact hdisj (List.mem_cons_of_mem _ hin) (List.mem_append.mpr (Or.inl hfn))
        · exact hdisj2 hfn hin
    have hrec := ih (done ++ movedOf m) h1r h2r hndr hdjr
    rw [List.foldlM_cons, hpm]
    show List.foldlM processModelDir ((rest ++ done) ++ movedOf m) rest = _
    rw [List.append_assoc, hrec, List.flatMap_cons]
    simp

theorem flatMap_congr {α β : Type} : ∀ (l : List α) (f g : α → List β),
    (∀ x ∈ l, f x = g x) → l.flatMap f = l.flatMap g := by
  intro l f g
  induction l with
  | nil => intro h; rfl
  | cons x xs ih =>
    intro h
    rw [List.flatMap_cons, List.flatMap_cons, h x (by simp), ih fun y hy => h y (by simp [hy])]

/-- C4: the flattening step of `_run_demucs` succeeds on a listing with
no directories at all (zero nesting levels, listing untouched), and on any
forest of model directories of arbitrary depth whose moved-file names
collide with nothing (one nesting level leaves nothing to move, deeper
levels move exactly the files two levels down); for the standard
two-level tree (model directories, then track directories, then files)
the result is exactly the original files, in iteration order: only files,
no subdirectories, and every original file present by name exactly
once. -/
theorem run_demucs_flatten_spec :
    (∀ root : List Entry, (∀ e ∈ root, isFile e = true) →
      _run_demucs_flatten root = Except.ok root) ∧
    (∀ root : List Entry, (∀ m ∈ root, isDir m = true) →
      (names root ++ names (root.flatMap movedOf)).Nodup →
      _run_demucs_flatten root = Except.ok (root.flatMap movedOf) ∧
      (∀ e ∈ root.flatMap movedOf, isFile e = true) ∧
      (names (root.flatMap movedOf)).Nodup) ∧
    (∀ root : List Entry, (∀ m ∈ root, isDir m = true) →
      (∀ m ∈ root, ∀ t ∈ childrenOf m, isDir t = true) →
      (∀ m ∈ root, ∀ t ∈ childrenOf m, ∀ f ∈ childrenOf t, isFile f = true) →
      (names root ++ names (origFiles2 root)).Nodup →
      _run_demucs_flatten root = Except.ok (origFiles2 root) ∧
      (∀ e ∈ origFiles2 root, isFile e = true) ∧
      (names (origFiles2 root)).Nodup) := by
  have part2 : ∀ root : List Entry, (∀ m ∈ root, isDir m = true) →
      (names root ++ names (root.flatMap movedOf)).Nodup →
      _run_demucs_flatten root = Except.ok (root.flatMap movedOf) ∧
      (∀ e ∈ root.flatMap movedOf, isFile e = true) ∧
      (names (root.flatMap movedOf)).Nodup := by
    intro root h1 hnd
    refine ⟨?_, ?_, hnd.of_append_right⟩
    · unfold _run_demucs_flatten
      rw [List.filter_eq_self.mpr h1]
      have hgo := flatten_go root [] h1 (by simp) hnd (by simp)
      rw [List.append_nil] at hgo
      rw [hgo]
      simp
    · intro f hf
      obtain ⟨m, hm, hf2⟩ := List.mem_flatMap.mp hf
      exact movedOf_isFile m f hf2
  refine ⟨?_, part2, ?_⟩
  · intro root h
    have hfd : root.filter isDir = [] := by
      apply List.filter_eq_nil_iff.mpr
      intro e he
      simp [isDir_false_of_isFile (h e he)]
    unfold _run_demucs_flatten
    rw [hfd]
    simp [List.foldlM_nil]
    rfl
  · intro root h1 h2 h3 hnd
    have heq : root.flatMap movedOf = origFiles2 root := by
      unfold origFiles2
      apply flatMap_congr
      intro m hm
      unfold movedOf
      rw [List.filter_eq_self.mpr (h2 m hm)]
      apply flatMap_congr
      intro t ht
      rw [List.filter_eq_self.mpr (h3 m hm t ht)]
    rw [← heq] at hnd ⊢
    exact part2 root h1 hnd

/-- Witness for C4: the standard demucs output tree, one model directory
containing one track directory containing the stem files, flattens to
exactly those files. -/
theorem run_demucs_flatten_spec_witness :
    _run_demucs_flatten
        [Entry.dir "htdemucs" [Entry.dir "track" [Entry.file "vocals.wav", Entry.file "drums.wav"]]] =
      Except.ok [Entry.file "vocals.wav", Entry.file "drums.wav"] :=
  (run_demucs_flatten_spec.2.2
    [Entry.dir "htdemucs" [Entry.dir "track" [Entry.file "vocals.wav", Entry.file "drums.wav"]]]
    (by decide) (by decide) (by decide) (by decide)).1

end RunJob
